import Mathlib

/-!
Shallow embedding of `src/package_statistics.py`.

The program keeps a dictionary from package name to association count,
populated line by line from a Debian Contents index, and reports the
top-k packages.  We embed the line-processing and reporting logic over
`List`-based data: the dictionary becomes an association list with
unique keys, Python strings become `String` / `List Char`, and the
fallible report loop (which can raise `IndexError`) returns `Option`.
-/

namespace PackageStatistics

/-- ASCII whitespace characters matched by the regex class `\s` used in
`re.split(r'\s+', line)` (the index lines in scope are ASCII). -/
def isWS (c : Char) : Bool :=
  c = ' ' || c = '\t' || c = '\n' || c = '\r' || c = '\x0b' || c = '\x0c'

/-- Embeds `re.split(r'\s+', line)`: the fields between maximal runs of
whitespace, with an empty field produced by a leading or trailing run.
For example `"a b"` gives `["a", "b"]`, `"a\n"` gives `["a", ""]`,
`" a"` gives `["", "a"]`, and a string with no whitespace gives one field. -/
def splitWS : List Char → List (List Char)
  | [] => [[]]
  | c :: rest =>
    if isWS c then
      match rest with
      | [] => [] :: splitWS rest
      | c2 :: _ => if isWS c2 then splitWS rest else [] :: splitWS rest
    else
      match splitWS rest with
      | [] => [[c]]
      | f :: fs => (c :: f) :: fs

/-- Embeds Python `str.split(",")`: every comma is a separator and empty
fields are kept, so `""` gives `[""]` and `"a,,b"` gives `["a", "", "b"]`. -/
def splitComma : List Char → List (List Char)
  | [] => [[]]
  | c :: rest =>
    if c = ',' then [] :: splitComma rest
    else
      match splitComma rest with
      | [] => [[c]]
      | f :: fs => (c :: f) :: fs

/-- The `package_associations` dictionary: an association list from
package name to count (keys are unique for every map the program builds). -/
abbrev AssocMap := List (String × Nat)

/-- Dictionary read: the count stored for `p`, `0` when absent
(the program only reads keys it has stored). -/
def lookupCount (m : AssocMap) (p : String) : Nat :=
  match m with
  | [] => 0
  | (q, c) :: rest => if q = p then c else lookupCount rest p

/-- Embeds the dictionary update
`if package not in d: d[package] = 1 else: d[package] += 1`. -/
def incr (m : AssocMap) (p : String) : AssocMap :=
  match m with
  | [] => [(p, 1)]
  | (q, c) :: rest => if q = p then (q, c + 1) :: rest else (q, c) :: incr rest p

/-- The token at index 1 of the whitespace split, when it exists:
`re.split(r'\s+', line)[1]`, with `none` for the caught `IndexError`. -/
def packageField (line : String) : Option (List Char) :=
  (splitWS line.data).get? 1

/-- True when `__process_package_association_line` takes its `except
IndexError` branch (logs the line and leaves the dictionary alone). -/
def lineParseError (line : String) : Bool :=
  (packageField line).isNone

/-- The package identifiers a line contributes: the comma split of the
package field, empty when the line has no field at index 1. -/
def pkgTokens (line : String) : List String :=
  match packageField line with
  | none => []
  | some fld => (splitComma fld).map (fun t => String.mk t)

/-- Embeds `__process_package_association_line`: extract the package
field, split it on commas, and count every resulting identifier; on
`IndexError` the dictionary is unchanged. -/
def processLine (m : AssocMap) (line : String) : AssocMap :=
  match packageField line with
  | none => m
  | some fld => ((splitComma fld).map (fun t => String.mk t)).foldl incr m

/-- The read loop of `generate_package_association_stats`: process every
line of the file in order. -/
def processLines (m : AssocMap) (lines : List String) : AssocMap :=
  lines.foldl processLine m

/-- Sum of all counts stored in the dictionary. -/
def sumValues (m : AssocMap) : Nat :=
  (m.map Prod.snd).sum

/-- Number of whitespace-delimited tokens of a line (nonempty maximal
runs of non-whitespace characters). -/
def wsTokenCount (line : String) : Nat :=
  ((splitWS line.data).filter (fun f => !f.isEmpty)).length

/-- The dictionary keys sorted by count, descending, as
`sorted(d, key=d.get, reverse=True)` produces them. -/
def sortedKeys (m : AssocMap) : List String :=
  List.insertionSort (fun a b => lookupCount m b ≤ lookupCount m a) (m.map Prod.fst)

/-- Embeds `heapq.nlargest(k, d, key=d.get)` by its documented contract:
the first `k` keys of the count-descending ordering of the dictionary. -/
def nlargestKeys (m : AssocMap) (k : Nat) : List String :=
  (sortedKeys m).take k

/-- The full list of (package, count) pairs in count-descending order. -/
def sortedPairs (m : AssocMap) : AssocMap :=
  (sortedKeys m).map (fun p => (p, lookupCount m p))

/-- The header text the report starts with. -/
def headerOf (arch : String) : String :=
  "\nPackage statistics for Contents file for " ++ arch ++ " architecture:\n"

/-- One report entry: `f"{rank}. {package}\t{count}\n"`. -/
def entryLine (rank : Nat) (p : String) (c : Nat) : String :=
  toString rank ++ ". " ++ p ++ "\t" ++ toString c ++ "\n"

/-- The report loop `for i in range(how_many)` starting at index `i`
with `n` iterations left; `none` embeds the `IndexError` raised by
`sorted_packages[i]` when the selection is shorter than requested. -/
def reportLines (m : AssocMap) (sorted : List String) : Nat → Nat → Option String
  | _, 0 => some ""
  | i, n + 1 =>
    match sorted.get? i with
    | none => none
    | some p =>
      match reportLines m sorted (i + 1) n with
      | none => none
      | some rest => some (entryLine (i + 1) p (lookupCount m p) ++ rest)

/-- Embeds `show_top_packages_with_most_associations`: select the top
`k` keys, then build the output text; `none` when the loop raises
`IndexError` (fewer distinct packages than `k`). -/
def show_top_packages_with_most_associations
    (m : AssocMap) (arch : String) (k : Nat) : Option String :=
  match reportLines m (nlargestKeys m k) 0 k with
  | none => none
  | some body => some (headerOf arch ++ body)

/-- The fields of `PackageContentsHandler` the report step can read or
write. -/
structure PackageContentsHandler where
  architecture : String
  package_address : String
  package_contents_directory : String
  package_associations : AssocMap
deriving DecidableEq

/-- The report method as a step on the handler state: it returns the
output text and the handler as the method leaves it (the method assigns
no field). -/
def show_top_step (h : PackageContentsHandler) (k : Nat) :
    Option (String × PackageContentsHandler) :=
  match show_top_packages_with_most_associations
      h.package_associations h.architecture k with
  | none => none
  | some out =>
    some (out,
      { architecture := h.architecture
        package_address := h.package_address
        package_contents_directory := h.package_contents_directory
        package_associations := h.package_associations })

/-- The state `generate_package_association_stats` and the Fetcher act
on: whether the decompressed file exists, its lines, the lines a fetch
would download, the dictionary, and how often the Fetcher ran. -/
structure SysState where
  fileExists : Bool
  fileLines : List String
  remoteLines : List String
  assoc : AssocMap
  fetchCount : Nat
deriving DecidableEq

/-- Embeds `retrieve_package_contents_file`: download and decompress,
making the file exist with the remote content. -/
def retrieve_package_contents_file (s : SysState) : SysState :=
  { s with fileExists := true, fileLines := s.remoteLines,
           fetchCount := s.fetchCount + 1 }

/-- Embeds `generate_package_association_stats`: fetch only if the file
is absent, then process every line of the file into the dictionary
(which is not cleared first). -/
def generate_package_association_stats (s : SysState) : SysState :=
  let s1 := if s.fileExists then s else retrieve_package_contents_file s
  { s1 with assoc := processLines s1.assoc s1.fileLines }

/-! ### Counting lemmas for the dictionary -/

theorem lookupCount_incr (m : AssocMap) (p q : String) :
    lookupCount (incr m p) q = lookupCount m q + (if p = q then 1 else 0) := by
  induction m with
  | nil =>
    simp only [incr, lookupCount]
    by_cases h : p = q <;> simp [h]
  | cons hd tl ih =>
    obtain ⟨a, c⟩ := hd
    simp only [incr]
    by_cases hap : a = p
    · subst hap
      simp only [if_pos rfl, lookupCount]
      by_cases haq : a = q <;> simp [haq]
    · simp only [if_neg hap, lookupCount]
      by_cases haq : a = q
      · subst haq
        have hpa : ¬ p = a := fun h => hap h.symm
        simp [hpa]
      · simp [haq, ih]

theorem lookupCount_foldl_incr (ts : List String) (m : AssocMap) (q : String) :
    lookupCount (ts.foldl incr m) q = lookupCount m q + ts.count q := by
  induction ts generalizing m with
  | nil => simp
  | cons t ts ih =>
    simp only [List.foldl_cons, ih, lookupCount_incr, List.count_cons, beq_iff_eq]
    by_cases h : t = q
    · simp [h]; omega
    · have : ¬ q = t := fun hh => h hh.symm
      simp [h, this]

theorem processLine_eq_foldl (m : AssocMap) (line : String) :
    processLine m line = (pkgTokens line).foldl incr m := by
  unfold processLine pkgTokens
  cases packageField line <;> simp

theorem lookupCount_processLine (m : AssocMap) (line : String) (q : String) :
    lookupCount (processLine m line) q = lookupCount m q + (pkgTokens line).count q := by
  rw [processLine_eq_foldl, lookupCount_foldl_incr]

theorem lookupCount_processLines (ls : List String) (m : AssocMap) (q : String) :
    lookupCount (processLines m ls) q =
      lookupCount m q + (ls.map (fun l => (pkgTokens l).count q)).sum := by
  induction ls generalizing m with
  | nil => simp [processLines]
  | cons l ls ih =>
    simp only [processLines, List.foldl_cons, List.map_cons, List.sum_cons]
    have := ih (processLine m l)
    simp only [processLines] at this
    rw [this, lookupCount_processLine]
    omega

theorem sumValues_incr (m : AssocMap) (p : String) :
    sumValues (incr m p) = sumValues m + 1 := by
  induction m with
  | nil => simp [incr, sumValues]
  | cons hd tl ih =>
    obtain ⟨a, c⟩ := hd
    simp only [incr]
    by_cases hap : a = p
    · simp [hap, sumValues]; omega
    · simp only [if_neg hap, sumValues, List.map_cons, List.sum_cons]
      simp only [sumValues] at ih
      omega

theorem sumValues_foldl_incr (ts : List String) (m : AssocMap) :
    sumValues (ts.foldl incr m) = sumValues m + ts.length := by
  induction ts generalizing m with
  | nil => simp
  | cons t ts ih =>
    simp only [List.foldl_cons, List.length_cons, ih, sumValues_incr]
    omega

theorem sumValues_processLine (m : AssocMap) (line : String) :
    sumValues (processLine m line) = sumValues m + (pkgTokens line).length := by
  rw [processLine_eq_foldl, sumValues_foldl_incr]

theorem sumValues_processLines (ls : List String) (m : AssocMap) :
    sumValues (processLines m ls) =
      sumValues m + (ls.map (fun l => (pkgTokens l).length)).sum := by
  induction ls generalizing m with
  | nil => simp [processLines]
  | cons l ls ih =>
    simp only [processLines, List.foldl_cons, List.map_cons, List.sum_cons]
    have := ih (processLine m l)
    simp only [processLines] at this
    rw [this, sumValues_processLine]
    omega

theorem pkgTokens_of_error (line : String) (h : lineParseError line = true) :
    pkgTokens line = [] := by
  unfold lineParseError at h
  unfold pkgTokens
  cases hf : packageField line with
  | none => rfl
  | some fld => simp [hf] at h

/-! ### Structure of the whitespace split -/

theorem splitWS_ne_nil (l : List Char) : splitWS l ≠ [] := by
  induction l with
  | nil => simp [splitWS]
  | cons c rest ih =>
    unfold splitWS
    by_cases hc : isWS c
    · simp only [if_pos hc]
      cases rest with
      | nil => simp
      | cons c2 r2 =>
        by_cases h2 : isWS c2
        · simpa [h2] using ih
        · simp [h2]
    · simp only [if_neg hc]
      cases hs : splitWS rest with
      | nil => simp
      | cons f fs => simp

theorem splitWS_length_pos (l : List Char) : 0 < (splitWS l).length :=
  List.length_pos.mpr (splitWS_ne_nil l)

theorem splitWS_cons_of_not_ws (c : Char) (l : List Char) (hc : isWS c = false)
    (f : List Char) (fs : List (List Char)) (h : splitWS l = f :: fs) :
    splitWS (c :: l) = (c :: f) :: fs := by
  unfold splitWS
  rw [h, if_neg]
  simp [hc]

theorem splitWS_of_no_ws (l : List Char) (h : ∀ c ∈ l, isWS c = false) :
    splitWS l = [l] := by
  induction l with
  | nil => rfl
  | cons c rest ih =>
    have hc : isWS c = false := h c (List.mem_cons_self c rest)
    have hrest : ∀ x ∈ rest, isWS x = false := fun x hx => h x (List.mem_cons_of_mem c hx)
    exact splitWS_cons_of_not_ws c rest hc rest [] (ih hrest)

theorem two_le_splitWS_length_of_ws (l : List Char)
    (hex : ∃ c ∈ l, isWS c = true) : 2 ≤ (splitWS l).length := by
  induction l with
  | nil => simp at hex
  | cons c rest ih =>
    by_cases hc : isWS c
    · unfold splitWS
      simp only [if_pos hc]
      cases rest with
      | nil => simp [splitWS]
      | cons c2 r2 =>
        by_cases h2 : isWS c2
        · simp only [if_pos h2]
          exact ih ⟨c2, List.mem_cons_self c2 r2, h2⟩
        · simp only [if_neg h2, List.length_cons]
          have := splitWS_length_pos (c2 :: r2)
          omega
    · have hc' : isWS c = false := by
        cases hb : isWS c
        · rfl
        · exact absurd hb hc
      have hcr : ∃ x ∈ rest, isWS x = true := by
        obtain ⟨c0, hmem, hws⟩ := hex
        rcases List.mem_cons.mp hmem with h | h
        · exact absurd (h ▸ hws) (by simp [hc'])
        · exact ⟨c0, h, hws⟩
      cases hs : splitWS rest with
      | nil => exact absurd hs (splitWS_ne_nil rest)
      | cons f fs =>
        rw [splitWS_cons_of_not_ws c rest hc' f fs hs]
        have := ih hcr
        rw [hs] at this
        simpa using this

theorem splitWS_length_eq_one_iff (l : List Char) :
    (splitWS l).length = 1 ↔ ∀ c ∈ l, isWS c = false := by
  constructor
  · intro h
    by_contra hex
    push_neg at hex
    obtain ⟨c0, hmem, hws⟩ := hex
    have hb : isWS c0 = true := by
      cases hb : isWS c0
      · exact absurd hb hws
      · rfl
    have := two_le_splitWS_length_of_ws l ⟨c0, hmem, hb⟩
    omega
  · intro h
    rw [splitWS_of_no_ws l h]
    rfl

theorem packageField_eq_none_iff (line : String) :
    packageField line = none ↔ ∀ c ∈ line.data, isWS c = false := by
  unfold packageField
  rw [List.get?_eq_none]
  have hpos := splitWS_length_pos line.data
  constructor
  · intro h
    have h1 : (splitWS line.data).length = 1 := by omega
    exact (splitWS_length_eq_one_iff line.data).mp h1
  · intro h
    rw [(splitWS_length_eq_one_iff line.data).mpr h]

theorem lineParseError_iff (line : String) :
    lineParseError line = true ↔ ∀ c ∈ line.data, isWS c = false := by
  unfold lineParseError
  rw [Option.isNone_iff_eq_none]
  exact packageField_eq_none_iff line

theorem splitWS_append_newline (t : List Char) (hw : ∀ c ∈ t, isWS c = false) :
    splitWS (t ++ ['\n']) = [t, []] := by
  induction t with
  | nil => rfl
  | cons c rest ih =>
    have hc : isWS c = false := hw c (List.mem_cons_self c rest)
    have hrest : ∀ x ∈ rest, isWS x = false := fun x hx => hw x (List.mem_cons_of_mem c hx)
    exact splitWS_cons_of_not_ws c (rest ++ ['\n']) hc rest [[]] (ih hrest)

/-! ### Top-k selection and report rendering -/

theorem lookupCount_of_mem (m : AssocMap) (hnd : (m.map Prod.fst).Nodup)
    (e : String × Nat) (he : e ∈ m) : lookupCount m e.1 = e.2 := by
  induction m with
  | nil => simp at he
  | cons hd tl ih =>
    obtain ⟨a, c⟩ := hd
    simp only [List.map_cons, List.nodup_cons] at hnd
    rcases List.mem_cons.mp he with h | h
    · subst h
      simp [lookupCount]
    · have hne : ¬ a = e.1 := by
        intro hh
        exact hnd.1 (hh ▸ List.mem_map.mpr ⟨e, h, rfl⟩)
      simp only [lookupCount, if_neg hne]
      exact ih hnd.2 h

theorem map_pair_lookup (m : AssocMap) (hnd : (m.map Prod.fst).Nodup) :
    (m.map Prod.fst).map (fun p => (p, lookupCount m p)) = m := by
  rw [List.map_map]
  have h : ∀ e ∈ m, ((fun p => (p, lookupCount m p)) ∘ Prod.fst) e = id e := by
    intro e he
    have := lookupCount_of_mem m hnd e he
    simp only [Function.comp, id]
    exact Prod.ext rfl this
  rw [List.map_congr_left h, List.map_id]

theorem sortedPairs_perm (m : AssocMap) (hnd : (m.map Prod.fst).Nodup) :
    m.Perm (sortedPairs m) := by
  unfold sortedPairs sortedKeys
  have h1 := (List.perm_insertionSort
    (fun a b => lookupCount m b ≤ lookupCount m a) (m.map Prod.fst)).map
      (fun p => (p, lookupCount m p))
  rw [map_pair_lookup m hnd] at h1
  exact h1.symm

theorem sortedPairs_sorted (m : AssocMap) :
    List.Sorted (fun a b : String × Nat => b.2 ≤ a.2) (sortedPairs m) := by
  unfold sortedPairs sortedKeys
  haveI : IsTotal String (fun a b => lookupCount m b ≤ lookupCount m a) :=
    ⟨fun a b => le_total (lookupCount m b) (lookupCount m a)⟩
  haveI : IsTrans String (fun a b => lookupCount m b ≤ lookupCount m a) :=
    ⟨fun _ _ _ hab hbc => le_trans hbc hab⟩
  have hs := List.sorted_insertionSort
    (fun a b => lookupCount m b ≤ lookupCount m a) (m.map Prod.fst)
  exact List.pairwise_map.mpr (hs.imp (fun h => by simpa using h))

theorem nlargest_pairs_eq_take (m : AssocMap) (k : Nat) :
    (nlargestKeys m k).map (fun p => (p, lookupCount m p)) = (sortedPairs m).take k := by
  unfold nlargestKeys sortedPairs
  exact List.map_take (fun p => (p, lookupCount m p)) (sortedKeys m) k

/-- Concatenation of the report entry strings. -/
def joinAll : List String → String
  | [] => ""
  | x :: xs => x ++ joinAll xs

theorem reportLines_format (m : AssocMap) (sorted : List String) :
    ∀ (n i : Nat) (body : String), reportLines m sorted i n = some body →
      body = joinAll ((List.range n).map (fun j =>
        entryLine (i + j + 1) ((sorted.get? (i + j)).getD "")
          (lookupCount m ((sorted.get? (i + j)).getD "")))) := by
  intro n
  induction n with
  | zero =>
    intro i body h
    simp only [reportLines, Option.some.injEq] at h
    simp [← h, joinAll]
  | succ n ih =>
    intro i body h
    simp only [reportLines] at h
    cases hg : sorted.get? i with
    | none => rw [hg] at h; exact absurd h (by simp)
    | some p =>
      rw [hg] at h
      cases hr : reportLines m sorted (i + 1) n with
      | none => rw [hr] at h; exact absurd h (by simp)
      | some rest =>
        rw [hr] at h
        simp only [Option.some.injEq] at h
        have hrest := ih (i + 1) rest hr
        rw [List.range_succ_eq_map]
        simp only [List.map_cons, List.map_map]
        have hhead : entryLine (i + 0 + 1) ((sorted.get? (i + 0)).getD "")
            (lookupCount m ((sorted.get? (i + 0)).getD "")) =
            entryLine (i + 1) p (lookupCount m p) := by
          simp only [Nat.add_zero, hg, Option.getD_some]
        have htail : (List.range n).map ((fun j =>
            entryLine (i + j + 1) ((sorted.get? (i + j)).getD "")
              (lookupCount m ((sorted.get? (i + j)).getD ""))) ∘ Nat.succ) =
            (List.range n).map (fun j =>
              entryLine (i + 1 + j + 1) ((sorted.get? (i + 1 + j)).getD "")
                (lookupCount m ((sorted.get? (i + 1 + j)).getD ""))) := by
          apply List.map_congr_left
          intro j _
          simp only [Function.comp]
          have harith : i + Nat.succ j = i + 1 + j := by omega
          rw [harith]
        rw [joinAll, hhead, htail, ← hrest, ← h]

theorem generate_stats_fileExists (s : SysState) :
    (generate_package_association_stats s).fileExists = true := by
  unfold generate_package_association_stats retrieve_package_contents_file
  cases h : s.fileExists <;> simp [h]

theorem generate_stats_of_file (s : SysState) (h : s.fileExists = true) :
    generate_package_association_stats s =
      { s with assoc := processLines s.assoc s.fileLines } := by
  unfold generate_package_association_stats
  simp [h]

theorem token_sum_filter (lines : List String) :
    (lines.map (fun l => (pkgTokens l).length)).sum =
      ((lines.filter (fun l => !(lineParseError l))).map
        (fun l => (pkgTokens l).length)).sum := by
  induction lines with
  | nil => rfl
  | cons l ls ih =>
    cases hb : lineParseError l
    · simp [List.filter_cons, hb, ih]
    · have h0 : pkgTokens l = [] := pkgTokens_of_error l hb
      simp [List.filter_cons, hb, h0, ih]

/-! ### The claims -/

/-- C1 (code bug): with a single distinct package in the mapping and the
default k = 10, the report loop indexes past the end of the 1-element
selection, raising IndexError (modelled as `none`) instead of producing the
clamped 1-entry report the specification requires. -/
theorem report_underflow_fails :
    show_top_packages_with_most_associations [("a", 1)] "amd64" 10 = none := by
  decide

/-- C2: after processing any list of lines starting from the empty dictionary,
the sum of all stored counts equals the total number of comma-separated
package tokens contributed by the valid (non-skipped) lines. -/
theorem sum_values_eq_total_tokens (lines : List String) :
    sumValues (processLines [] lines) =
      ((lines.filter (fun l => !(lineParseError l))).map
        (fun l => (pkgTokens l).length)).sum := by
  rw [sumValues_processLines, ← token_sum_filter]
  simp [sumValues]

/-- C3 counterexample: the line "a\n" has exactly one whitespace-delimited
token, yet processing it alters the mapping — the regex split yields an empty
trailing field at index 1 and the empty string is counted as a package. -/
theorem one_token_line_alters_mapping :
    wsTokenCount "a\n" = 1 ∧ processLine [] "a\n" ≠ [] := by
  decide

/-- C3 (amended): a line with no whitespace character at all (hence a single
token and no field at index 1) leaves the mapping unchanged and is logged as
a recovered, non-fatal parse error; a single-token line that ends in
whitespace is instead processed and counts a spurious key. -/
theorem no_ws_line_skipped_and_logged (m : AssocMap) (line : String)
    (h : ∀ c ∈ line.data, isWS c = false) :
    processLine m line = m ∧ lineParseError line = true := by
  have hpf : packageField line = none := (packageField_eq_none_iff line).mpr h
  constructor
  · unfold processLine
    rw [hpf]
  · unfold lineParseError
    rw [hpf]
    rfl

theorem no_ws_line_skipped_and_logged_witness :
    processLine [("a", 2)] "abc" = [("a", 2)] ∧ lineParseError "abc" = true :=
  no_ws_line_skipped_and_logged [("a", 2)] "abc" (by decide)

/-- C4: a line whose package field is "pkgA,pkgB" increments exactly the keys
pkgA and pkgB, each by 1, and leaves every other key unchanged. -/
theorem pkgA_pkgB_both_incremented (m : AssocMap) (line : String) (q : String)
    (hqA : q ≠ "pkgA") (hqB : q ≠ "pkgB")
    (h : packageField line = some "pkgA,pkgB".data) :
    lookupCount (processLine m line) "pkgA" = lookupCount m "pkgA" + 1 ∧
    lookupCount (processLine m line) "pkgB" = lookupCount m "pkgB" + 1 ∧
    lookupCount (processLine m line) q = lookupCount m q := by
  have htok : pkgTokens line = ["pkgA", "pkgB"] := by
    unfold pkgTokens
    rw [h]
    decide
  rw [processLine_eq_foldl, htok]
  simp only [List.foldl_cons, List.foldl_nil]
  refine ⟨?_, ?_, ?_⟩
  · rw [lookupCount_incr, lookupCount_incr,
      if_pos (rfl : ("pkgA" : String) = "pkgA"),
      if_neg (by decide : ¬ ("pkgB" : String) = "pkgA")]
  · rw [lookupCount_incr, lookupCount_incr,
      if_neg (by decide : ¬ ("pkgA" : String) = "pkgB"),
      if_pos (rfl : ("pkgB" : String) = "pkgB")]
  · rw [lookupCount_incr, lookupCount_incr,
      if_neg (fun hh => hqA hh.symm), if_neg (fun hh => hqB hh.symm)]
    omega

theorem pkgA_pkgB_both_incremented_witness :
    lookupCount (processLine [("pkgB", 3)] "x pkgA,pkgB") "pkgA" =
        lookupCount [("pkgB", 3)] "pkgA" + 1 ∧
    lookupCount (processLine [("pkgB", 3)] "x pkgA,pkgB") "pkgB" =
        lookupCount [("pkgB", 3)] "pkgB" + 1 ∧
    lookupCount (processLine [("pkgB", 3)] "x pkgA,pkgB") "other" =
        lookupCount [("pkgB", 3)] "other" :=
  pkgA_pkgB_both_incremented [("pkgB", 3)] "x pkgA,pkgB" "other"
    (by decide) (by decide) (by decide)

/-- C5 counterexample: with the decompressed file persisting and containing the
single line "f a", the first generate_stats call stores count 1 for "a" and the
second stores 2 — the second call does not leave the mapping equal to the
result of the first. -/
theorem second_generate_stats_changes_mapping :
    (generate_package_association_stats (generate_package_association_stats
        ⟨true, ["f a"], [], [], 0⟩)).assoc ≠
      (generate_package_association_stats ⟨true, ["f a"], [], [], 0⟩).assoc := by
  decide

/-- C5 (amended): while the decompressed file persists, the Fetcher runs at
most once across two generate_stats calls; but generate_stats does not clear
the dictionary, so the second call adds the file's counts again — every count
after the second call equals the count after the first plus the file's full
contribution, so the mapping is unchanged only when the file contributes
nothing. -/
theorem fetch_at_most_once_counts_accumulate (s : SysState) (p : String) :
    (generate_package_association_stats
        (generate_package_association_stats s)).fetchCount ≤ s.fetchCount + 1 ∧
    lookupCount (generate_package_association_stats
        (generate_package_association_stats s)).assoc p =
      lookupCount (generate_package_association_stats s).assoc p +
        ((generate_package_association_stats s).fileLines.map
          (fun l => (pkgTokens l).count p)).sum := by
  have hfe := generate_stats_fileExists s
  have h2 := generate_stats_of_file (generate_package_association_stats s) hfe
  constructor
  · rw [h2]
    have hb : (generate_package_association_stats s).fetchCount ≤ s.fetchCount + 1 := by
      unfold generate_package_association_stats retrieve_package_contents_file
      cases h : s.fileExists <;> simp [h]
    exact hb
  · rw [h2]
    exact lookupCount_processLines _ _ _

/-- C6: for a mapping with unique keys and at least k entries, the pairs chosen
by the top-k selection are, as a multiset, exactly the first k pairs of a full
count-descending ordering of the mapping's (package, count) pairs. -/
theorem top_k_refines_sorted_take (m : AssocMap) (k : Nat)
    (_hk : k ≤ m.length) (hnd : (m.map Prod.fst).Nodup) :
    m.Perm (sortedPairs m) ∧
    List.Sorted (fun a b : String × Nat => b.2 ≤ a.2) (sortedPairs m) ∧
    ((nlargestKeys m k).map (fun p => (p, lookupCount m p))).Perm
      ((sortedPairs m).take k) := by
  refine ⟨sortedPairs_perm m hnd, sortedPairs_sorted m, ?_⟩
  rw [nlargest_pairs_eq_take]

theorem top_k_refines_sorted_take_witness :
    (2 ≤ ([("a", 5), ("b", 3), ("c", 3), ("d", 1)] : AssocMap).length) ∧
    (([("a", 5), ("b", 3), ("c", 3), ("d", 1)] : AssocMap).Perm
        (sortedPairs [("a", 5), ("b", 3), ("c", 3), ("d", 1)]) ∧
      List.Sorted (fun a b : String × Nat => b.2 ≤ a.2)
        (sortedPairs [("a", 5), ("b", 3), ("c", 3), ("d", 1)]) ∧
      ((nlargestKeys [("a", 5), ("b", 3), ("c", 3), ("d", 1)] 2).map
          (fun p => (p, lookupCount [("a", 5), ("b", 3), ("c", 3), ("d", 1)] p))).Perm
        ((sortedPairs [("a", 5), ("b", 3), ("c", 3), ("d", 1)]).take 2)) :=
  ⟨by decide, top_k_refines_sorted_take [("a", 5), ("b", 3), ("c", 3), ("d", 1)] 2
    (by decide) (by decide)⟩

/-- C7: whenever report(k) succeeds, its text is the header line naming the
architecture followed by the k entry lines "{rank}. {package}\t{count}" with
one-indexed ranks taken from the top-k selection. -/
theorem report_output_format (m : AssocMap) (arch : String) (k : Nat)
    (out : String)
    (h : show_top_packages_with_most_associations m arch k = some out) :
    headerOf arch =
      "\nPackage statistics for Contents file for " ++ arch ++ " architecture:\n" ∧
    out = headerOf arch ++ joinAll ((List.range k).map (fun i =>
      entryLine (i + 1) (((nlargestKeys m k).get? i).getD "")
        (lookupCount m (((nlargestKeys m k).get? i).getD "")))) := by
  refine ⟨rfl, ?_⟩
  unfold show_top_packages_with_most_associations at h
  cases hr : reportLines m (nlargestKeys m k) 0 k with
  | none =>
    rw [hr] at h
    exact absurd h (by simp)
  | some body =>
    rw [hr] at h
    simp only [Option.some.injEq] at h
    have hbody := reportLines_format m (nlargestKeys m k) k 0 body hr
    rw [← h, hbody]
    congr 1
    apply congrArg
    apply List.map_congr_left
    intro j _
    simp

theorem report_output_format_witness :
    headerOf "x" =
      "\nPackage statistics for Contents file for " ++ "x" ++ " architecture:\n" ∧
    "\nPackage statistics for Contents file for x architecture:\n1. a\t1\n" =
      headerOf "x" ++ joinAll ((List.range 1).map (fun i =>
        entryLine (i + 1) (((nlargestKeys [("a", 1)] 1).get? i).getD "")
          (lookupCount [("a", 1)] (((nlargestKeys [("a", 1)] 1).get? i).getD "")))) :=
  report_output_format [("a", 1)] "x" 1
    "\nPackage statistics for Contents file for x architecture:\n1. a\t1\n"
    (by decide)

/-- C8: feeding any permutation of the index lines to the counter, starting
from the empty dictionary, yields the same final count for every package. -/
theorem processing_order_irrelevant (ls1 ls2 : List String) (h : ls1.Perm ls2)
    (p : String) :
    lookupCount (processLines [] ls1) p = lookupCount (processLines [] ls2) p := by
  rw [lookupCount_processLines, lookupCount_processLines]
  have hsum := (h.map (fun l => (pkgTokens l).count p)).sum_eq
  omega

theorem processing_order_irrelevant_witness :
    lookupCount (processLines [] ["f a", "g b"]) "a" =
      lookupCount (processLines [] ["g b", "f a"]) "a" :=
  processing_order_irrelevant ["f a", "g b"] ["g b", "f a"]
    (List.Perm.swap "g b" "f a" []) "a"

/-- C9: the report step leaves the handler's association mapping and
architecture exactly as they were before the call. -/
theorem report_preserves_handler (h : PackageContentsHandler) (k : Nat)
    (out : String) (h2 : PackageContentsHandler)
    (heq : show_top_step h k = some (out, h2)) :
    h2.package_associations = h.package_associations ∧
    h2.architecture = h.architecture := by
  unfold show_top_step at heq
  cases hm : show_top_packages_with_most_associations
      h.package_associations h.architecture k with
  | none =>
    rw [hm] at heq
    exact absurd heq (by simp)
  | some o =>
    rw [hm] at heq
    simp only [Option.some.injEq, Prod.mk.injEq] at heq
    obtain ⟨-, hh⟩ := heq
    rw [← hh]
    exact ⟨rfl, rfl⟩

theorem report_preserves_handler_witness :
    (⟨"x", "addr", "dir", [("a", 1)]⟩ : PackageContentsHandler).package_associations =
      (⟨"x", "addr", "dir", [("a", 1)]⟩ : PackageContentsHandler).package_associations ∧
    (⟨"x", "addr", "dir", [("a", 1)]⟩ : PackageContentsHandler).architecture =
      (⟨"x", "addr", "dir", [("a", 1)]⟩ : PackageContentsHandler).architecture :=
  report_preserves_handler ⟨"x", "addr", "dir", [("a", 1)]⟩ 1
    "\nPackage statistics for Contents file for x architecture:\n1. a\t1\n"
    ⟨"x", "addr", "dir", [("a", 1)]⟩ (by decide)

/-- C10: the log-and-skip branch is taken exactly for lines containing no
whitespace character at all; a nonempty single token followed by a newline is
not skipped — the split puts the empty string at index 1 and it is inserted
or incremented as a package identifier. -/
theorem parse_error_iff_no_whitespace (line : String) (m : AssocMap)
    (t : List Char) (_ht : t ≠ []) (hw : ∀ c ∈ t, isWS c = false) :
    (lineParseError line = true ↔ ∀ c ∈ line.data, isWS c = false) ∧
    processLine m (String.mk (t ++ ['\n'])) = incr m "" := by
  refine ⟨lineParseError_iff line, ?_⟩
  have hsp : splitWS (t ++ ['\n']) = [t, []] := splitWS_append_newline t hw
  unfold processLine packageField
  rw [show (String.mk (t ++ ['\n'])).data = t ++ ['\n'] from rfl, hsp]
  rfl

theorem parse_error_iff_no_whitespace_witness :
    (lineParseError "a b" = true ↔ ∀ c ∈ ("a b").data, isWS c = false) ∧
    processLine [] (String.mk (['a'] ++ ['\n'])) = incr [] "" :=
  parse_error_iff_no_whitespace "a b" [] ['a'] (by decide) (by decide)

end PackageStatistics
